import Mathlib

/-!
# Verification of the JRpeg forward compression pipeline (compress.py)

A shallow embedding of the JRpeg image compressor: colour transform
(`rgb_to_ycbcr`), chroma subsampling (`down_sample_cbcr`), blockwise DCT and
quantisation (`dct_and_quantise_img`) and the run-length serializer
(`encode_and_save_quantised_dct_img`).  Machine floating-point values are
modelled as exact rationals; the external 2D DCT routine (`cv2.dct`) and the
box filter (`cv2.boxFilter`) are abstract parameters, since they live outside
the repository.  Images are lists of rows; grids of 8x8 blocks carry their
block dimensions explicitly.
-/

namespace JRpeg

/-- Truncation of a rational toward zero: the semantics of `numpy.trunc` and
of Python's `int(...)` applied to a float. -/
def ratTrunc (q : ℚ) : ℤ := q.num.tdiv q.den

/-- Storage coercion into an unsigned 8-bit cell, as performed by assigning a
float result into the `uint8` image array: truncate toward zero, then wrap
modulo 256. -/
def toByte (q : ℚ) : ℤ := (ratTrunc q).emod 256

theorem ratTrunc_eq_floor {q : ℚ} (h : 0 ≤ q) : ratTrunc q = ⌊q⌋ := by
  rw [Rat.floor_def]
  exact Int.tdiv_eq_ediv (Rat.num_nonneg.mpr h) (Int.ofNat_nonneg q.den)

theorem ratTrunc_eq_ceil {q : ℚ} (h : q ≤ 0) : ratTrunc q = ⌈q⌉ := by
  have hn : ratTrunc q = -ratTrunc (-q) := by
    unfold ratTrunc
    rw [Rat.num_neg_eq_neg_num, Rat.den_neg_eq_den, Int.neg_tdiv, neg_neg]
  rw [hn, ratTrunc_eq_floor (by linarith), ← Int.ceil_neg, neg_neg]

theorem ratTrunc_intCast (z : ℤ) : ratTrunc (z : ℚ) = z := by
  unfold ratTrunc
  rw [Rat.num_intCast, Rat.den_intCast]
  exact Int.tdiv_one z

theorem ratTrunc_natCast (n : ℕ) : ratTrunc (n : ℚ) = n := by
  have h : ((n : ℤ) : ℚ) = (n : ℚ) := by push_cast; rfl
  rw [← h, ratTrunc_intCast]

theorem ratTrunc_nonneg {q : ℚ} (h : 0 ≤ q) : 0 ≤ ratTrunc q := by
  rw [ratTrunc_eq_floor h]
  exact Int.le_floor.mpr (by exact_mod_cast h)

theorem ratTrunc_le_255 {q : ℚ} (h0 : 0 ≤ q) (h : q < 256) : ratTrunc q ≤ 255 := by
  rw [ratTrunc_eq_floor h0]
  have hlt : ⌊q⌋ < 256 := Int.floor_lt.mpr (by exact_mod_cast h)
  omega

/-- On a value whose truncation already lies in `0..255`, the 8-bit storage
coercion is the identity on the truncated value: no wraparound happens. -/
theorem toByte_eq_ratTrunc {q : ℚ} (h0 : 0 ≤ q) (h : q < 256) :
    toByte q = ratTrunc q := by
  unfold toByte
  have h1 := ratTrunc_nonneg h0
  have h2 := ratTrunc_le_255 h0 h
  exact Int.emod_eq_of_lt h1 (by omega)

/-- One 3-component sample of a `PixelGrid` (R,G,B before the colour
transform, Y,Cb,Cr after). -/
structure Pix where
  c0 : ℚ
  c1 : ℚ
  c2 : ℚ
deriving DecidableEq

/-- Luma formula from `rgb_to_ycbcr`: `0.299 * r + 0.587 * g + 0.114 * b`. -/
def yFormula (p : Pix) : ℚ := 0.299 * p.c0 + 0.587 * p.c1 + 0.114 * p.c2

/-- Cb formula from `rgb_to_ycbcr`:
`(-0.168736 * r - 0.331264 * g + 0.5 * b) + 128`. -/
def cbFormula (p : Pix) : ℚ := (-0.168736 * p.c0 - 0.331264 * p.c1 + 0.5 * p.c2) + 128

/-- Cr formula from `rgb_to_ycbcr`:
`(0.5 * r - 0.418688 * g - 0.081312 * b) + 128`. -/
def crFormula (p : Pix) : ℚ := (0.5 * p.c0 - 0.418688 * p.c1 - 0.081312 * p.c2) + 128

/-- The per-pixel body of `rgb_to_ycbcr`: the three channel formulas, each
stored back into the 8-bit unsigned image array. -/
def ycbcrPix (p : Pix) : Pix :=
  ⟨(toByte (yFormula p) : ℚ), (toByte (cbFormula p) : ℚ), (toByte (crFormula p) : ℚ)⟩

/-- Embedding of `rgb_to_ycbcr`: `cv2.split` reads the R,G,B channels first, then the three
whole-array assignments overwrite the channels of the same image with the
Y,Cb,Cr formulas; since the split channels are copies, every output pixel
depends only on the same input pixel. -/
def rgb_to_ycbcr (img : List (List Pix)) : List (List Pix) :=
  img.map (fun row => row.map ycbcrPix)

/-- Pixel lookup in a pixel grid (out-of-range reads default to black). -/
def pixAt (img : List (List Pix)) (r c : ℕ) : Pix :=
  (img.getD r []).getD c ⟨0, 0, 0⟩

theorem getD_map_of_lt {α β : Type} (f : α → β) (l : List α) (n : ℕ)
    (h : n < l.length) (d : β) (d' : α) : (l.map f).getD n d = f (l.getD n d') := by
  rw [List.getD_eq_getElem _ _ (by simpa using h), List.getD_eq_getElem _ _ h]
  simp

theorem pixAt_rgb_to_ycbcr (img : List (List Pix)) (r c : ℕ)
    (hr : r < img.length) (hc : c < (img.getD r []).length) :
    pixAt (rgb_to_ycbcr img) r c = ycbcrPix (pixAt img r c) := by
  unfold pixAt rgb_to_ycbcr
  rw [getD_map_of_lt _ _ _ hr _ []]
  exact getD_map_of_lt _ _ _ hc _ _

/-- C5: `rgb_to_ycbcr` preserves the grid dimensions, and every output pixel
is obtained from the same input pixel's (R,G,B) components by the three
conversion formulas `Y = 0.299 R + 0.587 G + 0.114 B`,
`Cb = -0.168736 R - 0.331264 G + 0.5 B + 128` and
`Cr = 0.5 R - 0.418688 G - 0.081312 B + 128`, each stored through the 8-bit
unsigned coercion of the image array. -/
theorem color_transform_formulas_C5 (img : List (List Pix)) (r c : ℕ)
    (hr : r < img.length) (hc : c < (img.getD r []).length) :
    (rgb_to_ycbcr img).length = img.length
    ∧ ((rgb_to_ycbcr img).getD r []).length = (img.getD r []).length
    ∧ pixAt (rgb_to_ycbcr img) r c =
        ⟨(toByte (0.299 * (pixAt img r c).c0 + 0.587 * (pixAt img r c).c1
            + 0.114 * (pixAt img r c).c2) : ℚ),
         (toByte ((-0.168736 * (pixAt img r c).c0 - 0.331264 * (pixAt img r c).c1
            + 0.5 * (pixAt img r c).c2) + 128) : ℚ),
         (toByte ((0.5 * (pixAt img r c).c0 - 0.418688 * (pixAt img r c).c1
            - 0.081312 * (pixAt img r c).c2) + 128) : ℚ)⟩ := by
  refine ⟨by simp [rgb_to_ycbcr], ?_, ?_⟩
  · unfold rgb_to_ycbcr
    rw [getD_map_of_lt _ _ _ hr _ []]
    simp
  · rw [pixAt_rgb_to_ycbcr img r c hr hc]
    rfl

/-- Witness for C5 at a concrete 1x2 image. -/
theorem color_transform_formulas_C5_witness :
    (rgb_to_ycbcr [[⟨1, 2, 3⟩, ⟨255, 0, 0⟩]]).length = [[(⟨1, 2, 3⟩ : Pix), ⟨255, 0, 0⟩]].length
    ∧ ((rgb_to_ycbcr [[⟨1, 2, 3⟩, ⟨255, 0, 0⟩]]).getD 0 []).length
        = ([[(⟨1, 2, 3⟩ : Pix), ⟨255, 0, 0⟩]].getD 0 []).length
    ∧ pixAt (rgb_to_ycbcr [[⟨1, 2, 3⟩, ⟨255, 0, 0⟩]]) 0 1 =
        ⟨(toByte (0.299 * (pixAt [[⟨1, 2, 3⟩, ⟨255, 0, 0⟩]] 0 1).c0
            + 0.587 * (pixAt [[⟨1, 2, 3⟩, ⟨255, 0, 0⟩]] 0 1).c1
            + 0.114 * (pixAt [[⟨1, 2, 3⟩, ⟨255, 0, 0⟩]] 0 1).c2) : ℚ),
         (toByte ((-0.168736 * (pixAt [[⟨1, 2, 3⟩, ⟨255, 0, 0⟩]] 0 1).c0
            - 0.331264 * (pixAt [[⟨1, 2, 3⟩, ⟨255, 0, 0⟩]] 0 1).c1
            + 0.5 * (pixAt [[⟨1, 2, 3⟩, ⟨255, 0, 0⟩]] 0 1).c2) + 128) : ℚ),
         (toByte ((0.5 * (pixAt [[⟨1, 2, 3⟩, ⟨255, 0, 0⟩]] 0 1).c0
            - 0.418688 * (pixAt [[⟨1, 2, 3⟩, ⟨255, 0, 0⟩]] 0 1).c1
            - 0.081312 * (pixAt [[⟨1, 2, 3⟩, ⟨255, 0, 0⟩]] 0 1).c2) + 128) : ℚ)⟩ :=
  color_transform_formulas_C5 [[⟨1, 2, 3⟩, ⟨255, 0, 0⟩]] 0 1 (by decide) (by decide)

/-- C6: for 8-bit inputs (each component in `0..255`) the three colour
formulas stay inside `[0, 256)`, so the stored 8-bit values are exactly the
truncations, lie in `0..255`, and no wraparound occurs. -/
theorem color_transform_range_C6 (p : Pix)
    (h00 : 0 ≤ p.c0) (h01 : p.c0 ≤ 255) (h10 : 0 ≤ p.c1) (h11 : p.c1 ≤ 255)
    (h20 : 0 ≤ p.c2) (h21 : p.c2 ≤ 255) :
    (0 ≤ yFormula p ∧ yFormula p < 256
      ∧ toByte (yFormula p) = ratTrunc (yFormula p)
      ∧ 0 ≤ toByte (yFormula p) ∧ toByte (yFormula p) ≤ 255)
    ∧ (0 ≤ cbFormula p ∧ cbFormula p < 256
      ∧ toByte (cbFormula p) = ratTrunc (cbFormula p)
      ∧ 0 ≤ toByte (cbFormula p) ∧ toByte (cbFormula p) ≤ 255)
    ∧ (0 ≤ crFormula p ∧ crFormula p < 256
      ∧ toByte (crFormula p) = ratTrunc (crFormula p)
      ∧ 0 ≤ toByte (crFormula p) ∧ toByte (crFormula p) ≤ 255) := by
  have hy0 : 0 ≤ yFormula p := by unfold yFormula; nlinarith
  have hy1 : yFormula p < 256 := by unfold yFormula; nlinarith
  have hcb0 : 0 ≤ cbFormula p := by unfold cbFormula; nlinarith
  have hcb1 : cbFormula p < 256 := by unfold cbFormula; nlinarith
  have hcr0 : 0 ≤ crFormula p := by unfold crFormula; nlinarith
  have hcr1 : crFormula p < 256 := by unfold crFormula; nlinarith
  refine ⟨⟨hy0, hy1, toByte_eq_ratTrunc hy0 hy1, ?_, ?_⟩,
    ⟨hcb0, hcb1, toByte_eq_ratTrunc hcb0 hcb1, ?_, ?_⟩,
    ⟨hcr0, hcr1, toByte_eq_ratTrunc hcr0 hcr1, ?_, ?_⟩⟩
  · rw [toByte_eq_ratTrunc hy0 hy1]; exact ratTrunc_nonneg hy0
  · rw [toByte_eq_ratTrunc hy0 hy1]; exact ratTrunc_le_255 hy0 hy1
  · rw [toByte_eq_ratTrunc hcb0 hcb1]; exact ratTrunc_nonneg hcb0
  · rw [toByte_eq_ratTrunc hcb0 hcb1]; exact ratTrunc_le_255 hcb0 hcb1
  · rw [toByte_eq_ratTrunc hcr0 hcr1]; exact ratTrunc_nonneg hcr0
  · rw [toByte_eq_ratTrunc hcr0 hcr1]; exact ratTrunc_le_255 hcr0 hcr1

/-- Witness for C6 at the extreme pixel (255, 0, 0). -/
theorem color_transform_range_C6_witness :
    (0 ≤ yFormula ⟨255, 0, 0⟩ ∧ yFormula ⟨255, 0, 0⟩ < 256
      ∧ toByte (yFormula ⟨255, 0, 0⟩) = ratTrunc (yFormula ⟨255, 0, 0⟩)
      ∧ 0 ≤ toByte (yFormula ⟨255, 0, 0⟩) ∧ toByte (yFormula ⟨255, 0, 0⟩) ≤ 255)
    ∧ (0 ≤ cbFormula ⟨255, 0, 0⟩ ∧ cbFormula ⟨255, 0, 0⟩ < 256
      ∧ toByte (cbFormula ⟨255, 0, 0⟩) = ratTrunc (cbFormula ⟨255, 0, 0⟩)
      ∧ 0 ≤ toByte (cbFormula ⟨255, 0, 0⟩) ∧ toByte (cbFormula ⟨255, 0, 0⟩) ≤ 255)
    ∧ (0 ≤ crFormula ⟨255, 0, 0⟩ ∧ crFormula ⟨255, 0, 0⟩ < 256
      ∧ toByte (crFormula ⟨255, 0, 0⟩) = ratTrunc (crFormula ⟨255, 0, 0⟩)
      ∧ 0 ≤ toByte (crFormula ⟨255, 0, 0⟩) ∧ toByte (crFormula ⟨255, 0, 0⟩) ≤ 255) :=
  color_transform_range_C6 ⟨255, 0, 0⟩ (by norm_num) (by norm_num) (by norm_num)
    (by norm_num) (by norm_num) (by norm_num)

/-- A single-component plane, row by row. -/
abbrev Plane : Type := List (List ℚ)

/-- The three planes handed between pipeline stages (Y, Cb, Cr).  Values are
promoted to floating point (`np.float32`) on the way out of
`down_sample_cbcr`; on the 8-bit data present there this promotion is exact,
so the model keeps the same rational values. -/
structure Planes where
  y : Plane
  cb : Plane
  cr : Plane
deriving DecidableEq

/-- Helper for step slicing: `sliceAux s l k` keeps an element when the
countdown `k` hits zero and then restarts the countdown at `s - 1`. -/
def sliceAux {α : Type} (s : ℕ) : List α → ℕ → List α
  | [], _ => []
  | a :: t, 0 => a :: sliceAux s t (s - 1)
  | _ :: t, k + 1 => sliceAux s t k

/-- Python step slicing `l[::s]`: every `s`-th element starting at index 0. -/
def sliceStep {α : Type} (s : ℕ) (l : List α) : List α := sliceAux s l 0

/-- Decimation of a plane by `sample_factor`: `plane[::s, ::s]`. -/
def downPlane (s : ℕ) (p : Plane) : Plane :=
  (sliceStep s p).map (fun row => sliceStep s row)

/-- Embedding of `down_sample_cbcr`: when `sample_factor > 1`, the Cb and Cr planes are
box-filtered (`cv2.boxFilter`, an external routine modelled as the abstract
parameter `boxF`; it preserves the plane's dimensions) and then decimated by
step slicing; the Y plane passes through.  Otherwise all three planes are
returned unchanged (`np.float32` promotion being exact on 8-bit data). -/
def down_sample_cbcr (boxF : Plane → Plane) (img : Planes) (sample_factor : ℤ) : Planes :=
  if 1 < sample_factor then
    { y := img.y,
      cb := downPlane sample_factor.toNat (boxF img.cb),
      cr := downPlane sample_factor.toNat (boxF img.cr) }
  else img

theorem sliceAux_length {α : Type} (s : ℕ) (hs : 1 ≤ s) :
    ∀ (l : List α) (k : ℕ), (sliceAux s l k).length = (l.length - k + s - 1) / s := by
  intro l
  induction l with
  | nil =>
      intro k
      simp only [sliceAux, List.length_nil, Nat.zero_sub, Nat.zero_add]
      rw [Nat.div_eq_of_lt (by omega)]
  | cons a t ih =>
      intro k
      cases k with
      | zero =>
          simp only [sliceAux, List.length_cons, ih (s - 1)]
          have h2 : t.length + 1 - 0 + s - 1 = t.length + s := by omega
          rw [h2, Nat.add_div_right _ (by omega)]
          have h3 : (t.length - (s - 1) + s - 1) / s = t.length / s := by
            rcases Nat.lt_or_ge t.length (s - 1) with hlt | hge
            · have h4 : t.length - (s - 1) + s - 1 = s - 1 := by omega
              rw [h4, Nat.div_eq_of_lt (by omega), Nat.div_eq_of_lt (by omega)]
            · have h4 : t.length - (s - 1) + s - 1 = t.length := by omega
              rw [h4]
          omega
      | succ k =>
          simp only [sliceAux, List.length_cons, ih k]
          have h1 : t.length + 1 - (k + 1) = t.length - k := by omega
          rw [h1]

/-- The number of samples `l[::s]` keeps is the ceiling `(n + s - 1) / s`,
not the floor `n / s`. -/
theorem sliceStep_length {α : Type} (s : ℕ) (hs : 1 ≤ s) (l : List α) :
    (sliceStep s l).length = (l.length + s - 1) / s := by
  unfold sliceStep
  rw [sliceAux_length s hs l 0, Nat.sub_zero]

theorem mem_of_mem_sliceAux {α : Type} {s : ℕ} {x : α} :
    ∀ {l : List α} {k : ℕ}, x ∈ sliceAux s l k → x ∈ l := by
  intro l
  induction l with
  | nil => intro k h; exact absurd h (by simp [sliceAux])
  | cons a t ih =>
      intro k h
      cases k with
      | zero =>
          rcases List.mem_cons.mp h with h1 | h1
          · exact h1 ▸ List.mem_cons_self a t
          · exact List.mem_cons_of_mem a (ih h1)
      | succ k => exact List.mem_cons_of_mem a (ih h)

theorem mem_of_mem_sliceStep {α : Type} {s : ℕ} {x : α} {l : List α}
    (h : x ∈ sliceStep s l) : x ∈ l :=
  mem_of_mem_sliceAux h

/-- C8: with `sample_factor = 1` the subsampler is the identity: all three
planes come back unchanged (the `np.float32` promotion is exact here), with
their dimensions intact; no box filter and no decimation happen. -/
theorem chroma_identity_C8 (boxF : Plane → Plane) (img : Planes) :
    down_sample_cbcr boxF img 1 = img := by
  unfold down_sample_cbcr
  simp

/-- Counterexample to C4 as stated: a 3x3 plane decimated by factor 2 keeps
2 rows (indices 0 and 2), not `3 / 2 = 1` rows. -/
theorem chroma_dims_C4_counterexample :
    (down_sample_cbcr id
        ⟨List.replicate 3 (List.replicate 3 (0 : ℚ)),
         List.replicate 3 (List.replicate 3 (0 : ℚ)),
         List.replicate 3 (List.replicate 3 (0 : ℚ))⟩ 2).cb.length ≠ 3 / 2 := by
  decide

/-- C4 as amended: for `sample_factor > 1` the Cb and Cr planes produced by
`down_sample_cbcr` have dimensions `ceil(h / s) x ceil(w / s)` (that is,
`(h + s - 1) / s` rows and `(w + s - 1) / s` columns — the step-slicing
count), while the Y plane is passed through with its full `h x w` size;
`boxF` is any dimension-preserving filter, as `cv2.boxFilter` is. -/
theorem chroma_dims_C4 (boxF : Plane → Plane) (img : Planes) (s : ℤ)
    (hs : 1 < s) (h w : ℕ)
    (hbF : ∀ p : Plane, (boxF p).length = p.length
      ∧ ∀ w0 : ℕ, (∀ row ∈ p, row.length = w0) → ∀ row ∈ boxF p, row.length = w0)
    (hcbh : img.cb.length = h) (hcbw : ∀ row ∈ img.cb, row.length = w)
    (hcrh : img.cr.length = h) (hcrw : ∀ row ∈ img.cr, row.length = w) :
    (down_sample_cbcr boxF img s).y = img.y
    ∧ (down_sample_cbcr boxF img s).cb.length = (h + s.toNat - 1) / s.toNat
    ∧ (∀ row ∈ (down_sample_cbcr boxF img s).cb, row.length = (w + s.toNat - 1) / s.toNat)
    ∧ (down_sample_cbcr boxF img s).cr.length = (h + s.toNat - 1) / s.toNat
    ∧ (∀ row ∈ (down_sample_cbcr boxF img s).cr, row.length = (w + s.toNat - 1) / s.toNat) := by
  have hs1 : 1 ≤ s.toNat := by omega
  unfold down_sample_cbcr
  rw [if_pos hs]
  refine ⟨rfl, ?_, ?_, ?_, ?_⟩
  · show (downPlane s.toNat (boxF img.cb)).length = _
    unfold downPlane
    rw [List.length_map, sliceStep_length s.toNat hs1, (hbF img.cb).1, hcbh]
  · intro row hrow
    unfold downPlane at hrow
    rcases List.mem_map.mp hrow with ⟨row0, hrow0, hEq⟩
    rw [← hEq, sliceStep_length s.toNat hs1,
      (hbF img.cb).2 w hcbw row0 (mem_of_mem_sliceStep hrow0)]
  · show (downPlane s.toNat (boxF img.cr)).length = _
    unfold downPlane
    rw [List.length_map, sliceStep_length s.toNat hs1, (hbF img.cr).1, hcrh]
  · intro row hrow
    unfold downPlane at hrow
    rcases List.mem_map.mp hrow with ⟨row0, hrow0, hEq⟩
    rw [← hEq, sliceStep_length s.toNat hs1,
      (hbF img.cr).2 w hcrw row0 (mem_of_mem_sliceStep hrow0)]

/-- Witness for the amended C4 at a concrete 3x3 input with factor 2. -/
theorem chroma_dims_C4_witness :
    (down_sample_cbcr id
        ⟨List.replicate 3 (List.replicate 3 (0 : ℚ)),
         List.replicate 3 (List.replicate 3 (0 : ℚ)),
         List.replicate 3 (List.replicate 3 (0 : ℚ))⟩ 2).y
      = List.replicate 3 (List.replicate 3 (0 : ℚ))
    ∧ (down_sample_cbcr id
        ⟨List.replicate 3 (List.replicate 3 (0 : ℚ)),
         List.replicate 3 (List.replicate 3 (0 : ℚ)),
         List.replicate 3 (List.replicate 3 (0 : ℚ))⟩ 2).cb.length
      = (3 + (2 : ℤ).toNat - 1) / (2 : ℤ).toNat
    ∧ (∀ row ∈ (down_sample_cbcr id
        ⟨List.replicate 3 (List.replicate 3 (0 : ℚ)),
         List.replicate 3 (List.replicate 3 (0 : ℚ)),
         List.replicate 3 (List.replicate 3 (0 : ℚ))⟩ 2).cb,
        row.length = (3 + (2 : ℤ).toNat - 1) / (2 : ℤ).toNat)
    ∧ (down_sample_cbcr id
        ⟨List.replicate 3 (List.replicate 3 (0 : ℚ)),
         List.replicate 3 (List.replicate 3 (0 : ℚ)),
         List.replicate 3 (List.replicate 3 (0 : ℚ))⟩ 2).cr.length
      = (3 + (2 : ℤ).toNat - 1) / (2 : ℤ).toNat
    ∧ (∀ row ∈ (down_sample_cbcr id
        ⟨List.replicate 3 (List.replicate 3 (0 : ℚ)),
         List.replicate 3 (List.replicate 3 (0 : ℚ)),
         List.replicate 3 (List.replicate 3 (0 : ℚ))⟩ 2).cr,
        row.length = (3 + (2 : ℤ).toNat - 1) / (2 : ℤ).toNat) :=
  chroma_dims_C4 id
    ⟨List.replicate 3 (List.replicate 3 (0 : ℚ)),
     List.replicate 3 (List.replicate 3 (0 : ℚ)),
     List.replicate 3 (List.replicate 3 (0 : ℚ))⟩ 2
    (by decide) 3 3
    (fun p => ⟨rfl, fun w0 hw => hw⟩)
    (by decide) (by decide) (by decide) (by decide)

/-- An 8x8 block of coefficients. -/
abbrev Block : Type := Fin 8 → Fin 8 → ℚ

/-- Element lookup in a plane (out-of-range reads default to 0). -/
def elt (p : Plane) (r c : ℕ) : ℚ := (p.getD r []).getD c 0

/-- The width a numpy array reports for a rectangular plane: the length of
row 0 (`len(img[ch][0])`). -/
def planeW (p : Plane) : ℕ := (p.getD 0 []).length

/-- A plane is rectangular when every row has the reported width. -/
def Rect (p : Plane) : Prop := ∀ row ∈ p, row.length = planeW p

/-- The cropping step of `dct_and_quantise_img`: when either dimension is not
a multiple of 8, slice off the trailing `height % 8` rows and `width % 8`
columns. -/
def crop8 (p : Plane) : Plane :=
  if 0 < p.length % 8 ∨ 0 < planeW p % 8 then
    (p.take (p.length - p.length % 8)).map (fun row => row.take (planeW p - planeW p % 8))
  else p

/-- A grid of 8x8 blocks together with its block dimensions
(`img[ch].shape[:2]` after `view_as_blocks`). -/
structure BlockGrid where
  bh : ℕ
  bw : ℕ
  block : ℕ → ℕ → Block

/-- Semantics of `skimage.util.view_as_blocks(arr, (8, 8))`: block `(i, j)` holds the
elements of the 8x8 tile whose top-left corner is `(8 i, 8 j)`. -/
def view_as_blocks (p : Plane) : BlockGrid :=
  { bh := p.length / 8,
    bw := planeW p / 8,
    block := fun i j u v => elt p (8 * i + u) (8 * j + v) }

/-- The loop body of `dct_and_quantise_img` for one block: convert to float,
shift by `-128`, apply the (external) 2D DCT, and, when the plane's rate is
positive, divide by the reference matrix scaled by the rate and truncate
toward zero; a non-positive rate leaves the raw DCT output. -/
def processBlock (dct : Block → Block) (Q : Block) (rate : ℚ) (b : Block) : Block :=
  let d := dct (fun u v => b u v - 128)
  if 0 < rate then (fun u v => ((ratTrunc (d u v / (Q u v * rate)) : ℤ) : ℚ)) else d

/-- In-place update of one block of the grid (`img[ch][i, j] = block`). -/
def updGrid (g : ℕ → ℕ → Block) (i j : ℕ) (b : Block) : ℕ → ℕ → Block :=
  fun a c => if a = i ∧ c = j then b else g a c

/-- One iteration of the nested block loop: read block `(i, j)` from the
current state, process it, write it back. -/
def stepB (f : Block → Block) (g : ℕ → ℕ → Block) (q : ℕ × ℕ) : ℕ → ℕ → Block :=
  updGrid g q.1 q.2 (f (g q.1 q.2))

/-- The row-major index sequence of the nested `for i ... for j ...` loops. -/
def idxList (bh bw : ℕ) : List (ℕ × ℕ) :=
  (List.range bh).flatMap (fun i => (List.range bw).map (fun j => (i, j)))

/-- One channel of `dct_and_quantise_img`: crop, split into 8x8 blocks, then
run the block loop over the whole grid, mutating it in place. -/
def dct_ch (dct : Block → Block) (Q : Block) (rate : ℚ) (p : Plane) : BlockGrid :=
  let g := view_as_blocks (crop8 p)
  { bh := g.bh, bw := g.bw,
    block := (idxList g.bh g.bw).foldl (stepB (processBlock dct Q rate)) g.block }

/-- Embedding of `dct_and_quantise_img`: channel 0 (luma) uses `Qlum` and `QL_rate`, the
chroma channels use `Qchrom` and `QC_rate`. -/
def dct_and_quantise_img (dct : Block → Block) (Qlum Qchrom : Block) (QL QC : ℚ)
    (img : Fin 3 → Plane) : Fin 3 → BlockGrid :=
  fun ch => if ch = 0 then dct_ch dct Qlum QL (img ch) else dct_ch dct Qchrom QC (img ch)

theorem mem_idxList {bh bw : ℕ} {i j : ℕ} :
    (i, j) ∈ idxList bh bw ↔ i < bh ∧ j < bw := by
  simp only [idxList, List.mem_flatMap, List.mem_map, List.mem_range, Prod.mk.injEq]
  constructor
  · rintro ⟨a, ha, b, hb, h1, h2⟩
    exact ⟨h1 ▸ ha, h2 ▸ hb⟩
  · rintro ⟨h1, h2⟩
    exact ⟨i, h1, j, h2, rfl, rfl⟩

theorem idxList_nodup (bh bw : ℕ) : (idxList bh bw).Nodup := by
  unfold idxList
  rw [List.nodup_flatMap]
  constructor
  · intro i _
    refine (List.nodup_range bw).map ?_
    intro a b hab
    simpa using congrArg Prod.snd hab
  · refine (List.nodup_range bh).imp ?_
    intro a b hne x hxa hxb
    rcases List.mem_map.mp hxa with ⟨ja, _, hja⟩
    rcases List.mem_map.mp hxb with ⟨jb, _, hjb⟩
    apply hne
    have h1 : a = x.1 := congrArg Prod.fst hja
    have h2 : b = x.1 := congrArg Prod.fst hjb
    rw [h1, h2]

theorem foldl_stepB_not_mem (f : Block → Block) :
    ∀ (l : List (ℕ × ℕ)) (g : ℕ → ℕ → Block) {i j : ℕ}, (i, j) ∉ l →
      (l.foldl (stepB f) g) i j = g i j := by
  intro l
  induction l with
  | nil => intro g i j _; rfl
  | cons q t ih =>
      intro g i j h
      rw [List.foldl_cons, ih _ (fun hm => h (List.mem_cons_of_mem _ hm))]
      unfold stepB updGrid
      rw [if_neg]
      rintro ⟨h1, h2⟩
      exact h (by rw [h1, h2]; exact List.mem_cons_self q t)

theorem foldl_stepB_mem (f : Block → Block) :
    ∀ (l : List (ℕ × ℕ)), l.Nodup → ∀ (g : ℕ → ℕ → Block) {i j : ℕ}, (i, j) ∈ l →
      (l.foldl (stepB f) g) i j = f (g i j) := by
  intro l
  induction l with
  | nil => intro _ g i j h; exact absurd h (List.not_mem_nil _)
  | cons q t ih =>
      intro hnd g i j h
      have hq : q ∉ t := (List.nodup_cons.mp hnd).1
      rw [List.foldl_cons]
      rcases List.mem_cons.mp h with h1 | h1
      · rw [foldl_stepB_not_mem f t _ (by rw [h1]; exact hq)]
        have hfst : i = q.1 := congrArg Prod.fst h1
        have hsnd : j = q.2 := congrArg Prod.snd h1
        unfold stepB updGrid
        rw [if_pos ⟨hfst, hsnd⟩, hfst, hsnd]
      · rw [ih (List.nodup_cons.mp hnd).2 _ h1]
        have hne : ¬(i = q.1 ∧ j = q.2) := by
          rintro ⟨h2, h3⟩
          have h4 : (q.1, q.2) ∈ t := by rw [← h2, ← h3]; exact h1
          exact hq (by simpa using h4)
        unfold stepB updGrid
        rw [if_neg hne]

/-- The in-place nested block loop computes, at every in-range position, the
processed version of the original block at that position. -/
theorem dct_ch_block (dct : Block → Block) (Q : Block) (rate : ℚ) (p : Plane)
    {i j : ℕ} (hi : i < (dct_ch dct Q rate p).bh) (hj : j < (dct_ch dct Q rate p).bw) :
    (dct_ch dct Q rate p).block i j
      = processBlock dct Q rate ((view_as_blocks (crop8 p)).block i j) := by
  unfold dct_ch at hi hj ⊢
  exact foldl_stepB_mem _ _ (idxList_nodup _ _) _ (mem_idxList.mpr ⟨hi, hj⟩)

theorem processBlock_pos (dct : Block → Block) (Q : Block) (rate : ℚ) (b : Block)
    (h : 0 < rate) :
    processBlock dct Q rate b
      = fun u v => ((ratTrunc ((dct (fun a c => b a c - 128)) u v / (Q u v * rate)) : ℤ) : ℚ) := by
  unfold processBlock
  rw [if_pos h]

theorem processBlock_nonpos (dct : Block → Block) (Q : Block) (rate : ℚ) (b : Block)
    (h : ¬ 0 < rate) :
    processBlock dct Q rate b = dct (fun a c => b a c - 128) := by
  unfold processBlock
  rw [if_neg h]

/-- The full per-block characterisation of `dct_and_quantise_img`: at every
in-range grid position the output block is the processed original block, with
`Qlum`/`QL_rate` on channel 0 and `Qchrom`/`QC_rate` on channels 1, 2. -/
theorem dct_img_block (dct : Block → Block) (Qlum Qchrom : Block) (QL QC : ℚ)
    (img : Fin 3 → Plane) (ch : Fin 3) {i j : ℕ}
    (hi : i < (dct_and_quantise_img dct Qlum Qchrom QL QC img ch).bh)
    (hj : j < (dct_and_quantise_img dct Qlum Qchrom QL QC img ch).bw) :
    (dct_and_quantise_img dct Qlum Qchrom QL QC img ch).block i j
      = processBlock dct (if ch = 0 then Qlum else Qchrom) (if ch = 0 then QL else QC)
          ((view_as_blocks (crop8 (img ch))).block i j) := by
  unfold dct_and_quantise_img at hi hj ⊢
  by_cases hch : ch = 0
  · simp only [if_pos hch] at hi hj ⊢
    exact dct_ch_block dct Qlum QL (img ch) hi hj
  · simp only [if_neg hch] at hi hj ⊢
    exact dct_ch_block dct Qchrom QC (img ch) hi hj

theorem crop8_length (p : Plane) : (crop8 p).length = p.length - p.length % 8 := by
  unfold crop8
  split
  · rw [List.length_map, List.length_take]
    omega
  · rename_i h
    omega

theorem crop8_row_length (p : Plane) (hrect : Rect p) :
    ∀ row ∈ crop8 p, row.length = planeW p - planeW p % 8 := by
  unfold crop8
  split
  · intro row hrow
    rcases List.mem_map.mp hrow with ⟨row0, hrow0, hEq⟩
    rw [← hEq, List.length_take, hrect row0 (List.mem_of_mem_take hrow0)]
    omega
  · rename_i h
    intro row hrow
    rw [hrect row hrow]
    omega

theorem elt_crop8 (p : Plane) (hrect : Rect p) {r c : ℕ}
    (hr : r < p.length - p.length % 8) (hc : c < planeW p - planeW p % 8) :
    elt (crop8 p) r c = elt p r c := by
  unfold crop8
  split
  · unfold elt
    have hr1 : r < (p.take (p.length - p.length % 8)).length := by
      rw [List.length_take]; omega
    have hr2 : r < p.length := by omega
    rw [getD_map_of_lt _ _ _ hr1 _ []]
    have hrow : (p.take (p.length - p.length % 8)).getD r [] = p.getD r [] := by
      rw [List.getD_eq_getElem _ _ hr1, List.getD_eq_getElem _ _ hr2]
      exact List.getElem_take p
    rw [hrow]
    have hlen : (p.getD r []).length = planeW p := by
      rw [List.getD_eq_getElem _ _ hr2]
      exact hrect _ (List.getElem_mem hr2)
    have hc1 : c < ((p.getD r []).take (planeW p - planeW p % 8)).length := by
      rw [List.length_take, hlen]; omega
    have hc2 : c < (p.getD r []).length := by rw [hlen]; omega
    rw [List.getD_eq_getElem _ _ hc1, List.getD_eq_getElem _ _ hc2]
    exact List.getElem_take _
  · rfl

theorem planeW_crop8 (p : Plane) (hrect : Rect p) (h8 : 8 ≤ p.length) :
    planeW (crop8 p) = planeW p - planeW p % 8 := by
  have hlen : 0 < (crop8 p).length := by rw [crop8_length]; omega
  unfold planeW
  rw [List.getD_eq_getElem _ _ hlen]
  exact crop8_row_length p hrect _ (List.getElem_mem hlen)

theorem view_crop_block (p : Plane) (hrect : Rect p) {i j : ℕ}
    (hi : i < (p.length - p.length % 8) / 8) (hj : j < (planeW p - planeW p % 8) / 8)
    (u v : Fin 8) :
    (view_as_blocks (crop8 p)).block i j u v = elt p (8 * i + u) (8 * j + v) := by
  show elt (crop8 p) (8 * i + u) (8 * j + v) = elt p (8 * i + u) (8 * j + v)
  have hu := u.isLt
  have hv := v.isLt
  exact elt_crop8 p hrect (by omega) (by omega)

/-- C3: the quantizer keeps exactly the first `h - h % 8` rows and the first
`w - w % 8` columns of each plane, then partitions the cropped plane into a
`((h - h % 8) / 8) x ((w - w % 8) / 8)` grid of 8x8 blocks in row-major
order (block `(i, j)` reads the plane elements at `(8 i + u, 8 j + v)`); a
16x16 plane yields exactly a 2x2 grid. -/
theorem block_partition_C3 (p : Plane) (hrect : Rect p) :
    (crop8 p).length = p.length - p.length % 8
    ∧ (∀ row ∈ crop8 p, row.length = planeW p - planeW p % 8)
    ∧ (∀ r c : ℕ, r < p.length - p.length % 8 → c < planeW p - planeW p % 8 →
        elt (crop8 p) r c = elt p r c)
    ∧ (∀ (dct : Block → Block) (Q : Block) (rate : ℚ),
        (dct_ch dct Q rate p).bh = (p.length - p.length % 8) / 8
        ∧ (8 ≤ p.length → (dct_ch dct Q rate p).bw = (planeW p - planeW p % 8) / 8))
    ∧ (∀ i j : ℕ, i < (p.length - p.length % 8) / 8 → j < (planeW p - planeW p % 8) / 8 →
        ∀ u v : Fin 8, (view_as_blocks (crop8 p)).block i j u v
          = elt p (8 * i + u) (8 * j + v))
    ∧ (p.length = 16 → planeW p = 16 →
        (view_as_blocks (crop8 p)).bh = 2 ∧ (view_as_blocks (crop8 p)).bw = 2) := by
  have hbh : (view_as_blocks (crop8 p)).bh = (p.length - p.length % 8) / 8 := by
    show (crop8 p).length / 8 = _
    rw [crop8_length]
  refine ⟨crop8_length p, crop8_row_length p hrect, ?_, ?_, ?_, ?_⟩
  · intro r c hr hc
    exact elt_crop8 p hrect hr hc
  · intro dct Q rate
    refine ⟨hbh, ?_⟩
    intro h8
    show planeW (crop8 p) / 8 = _
    rw [planeW_crop8 p hrect h8]
  · intro i j hi hj u v
    exact view_crop_block p hrect hi hj u v
  · intro hh hw
    constructor
    · rw [hbh, hh]
    · show planeW (crop8 p) / 8 = 2
      rw [planeW_crop8 p hrect (by omega), hw]

/-- Witness for C3 at a concrete 16x16 plane of zeros. -/
theorem block_partition_C3_witness :
    (crop8 (List.replicate 16 (List.replicate 16 (0 : ℚ)))).length
        = (List.replicate 16 (List.replicate 16 (0 : ℚ))).length
          - (List.replicate 16 (List.replicate 16 (0 : ℚ))).length % 8
    ∧ (∀ row ∈ crop8 (List.replicate 16 (List.replicate 16 (0 : ℚ))),
        row.length = planeW (List.replicate 16 (List.replicate 16 (0 : ℚ)))
          - planeW (List.replicate 16 (List.replicate 16 (0 : ℚ))) % 8)
    ∧ (∀ r c : ℕ,
        r < (List.replicate 16 (List.replicate 16 (0 : ℚ))).length
          - (List.replicate 16 (List.replicate 16 (0 : ℚ))).length % 8 →
        c < planeW (List.replicate 16 (List.replicate 16 (0 : ℚ)))
          - planeW (List.replicate 16 (List.replicate 16 (0 : ℚ))) % 8 →
        elt (crop8 (List.replicate 16 (List.replicate 16 (0 : ℚ)))) r c
          = elt (List.replicate 16 (List.replicate 16 (0 : ℚ))) r c)
    ∧ (∀ (dct : Block → Block) (Q : Block) (rate : ℚ),
        (dct_ch dct Q rate (List.replicate 16 (List.replicate 16 (0 : ℚ)))).bh
          = ((List.replicate 16 (List.replicate 16 (0 : ℚ))).length
            - (List.replicate 16 (List.replicate 16 (0 : ℚ))).length % 8) / 8
        ∧ (8 ≤ (List.replicate 16 (List.replicate 16 (0 : ℚ))).length →
            (dct_ch dct Q rate (List.replicate 16 (List.replicate 16 (0 : ℚ)))).bw
              = (planeW (List.replicate 16 (List.replicate 16 (0 : ℚ)))
                - planeW (List.replicate 16 (List.replicate 16 (0 : ℚ))) % 8) / 8))
    ∧ (∀ i j : ℕ,
        i < ((List.replicate 16 (List.replicate 16 (0 : ℚ))).length
          - (List.replicate 16 (List.replicate 16 (0 : ℚ))).length % 8) / 8 →
        j < (planeW (List.replicate 16 (List.replicate 16 (0 : ℚ)))
          - planeW (List.replicate 16 (List.replicate 16 (0 : ℚ))) % 8) / 8 →
        ∀ u v : Fin 8,
          (view_as_blocks (crop8 (List.replicate 16 (List.replicate 16 (0 : ℚ))))).block i j u v
            = elt (List.replicate 16 (List.replicate 16 (0 : ℚ))) (8 * i + u) (8 * j + v))
    ∧ ((List.replicate 16 (List.replicate 16 (0 : ℚ))).length = 16 →
        planeW (List.replicate 16 (List.replicate 16 (0 : ℚ))) = 16 →
        (view_as_blocks (crop8 (List.replicate 16 (List.replicate 16 (0 : ℚ))))).bh = 2
        ∧ (view_as_blocks (crop8 (List.replicate 16 (List.replicate 16 (0 : ℚ))))).bw = 2) :=
  block_partition_C3 (List.replicate 16 (List.replicate 16 (0 : ℚ)))
    (by unfold Rect; decide)

/-- C2: for every in-range block of every plane, the output of
`dct_and_quantise_img` is obtained by subtracting 128 from the block, applying
the external 2D DCT, and then — exactly when the plane's rate is positive —
dividing element-wise by the reference matrix (`Qlum` on the luma channel,
`Qchrom` on chroma channels) scaled by that rate and truncating toward zero;
with rate 0 the coefficients stay the raw DCT output. -/
theorem dct_quantise_C2 (dct : Block → Block) (Qlum Qchrom : Block) (QL QC : ℚ)
    (img : Fin 3 → Plane) (ch : Fin 3) (i j : ℕ)
    (hi : i < (dct_and_quantise_img dct Qlum Qchrom QL QC img ch).bh)
    (hj : j < (dct_and_quantise_img dct Qlum Qchrom QL QC img ch).bw) :
    (0 < (if ch = 0 then QL else QC) →
      (dct_and_quantise_img dct Qlum Qchrom QL QC img ch).block i j
        = fun u v => ((ratTrunc
            ((dct (fun a c => (view_as_blocks (crop8 (img ch))).block i j a c - 128)) u v
              / ((if ch = 0 then Qlum else Qchrom) u v * (if ch = 0 then QL else QC))) : ℤ) : ℚ))
    ∧ ((if ch = 0 then QL else QC) = 0 →
      (dct_and_quantise_img dct Qlum Qchrom QL QC img ch).block i j
        = dct (fun a c => (view_as_blocks (crop8 (img ch))).block i j a c - 128)) := by
  have hb := dct_img_block dct Qlum Qchrom QL QC img ch hi hj
  constructor
  · intro hQ
    rw [hb, processBlock_pos _ _ _ _ hQ]
  · intro hQ
    rw [hb, processBlock_nonpos _ _ _ _ (by rw [hQ]; exact lt_irrefl 0)]

/-- Witness for C2 at a concrete 8x8 zero plane, identity DCT and unit
matrices and rates, block (0,0) of the luma channel. -/
theorem dct_quantise_C2_witness :
    (0 < (if (0 : Fin 3) = 0 then (1 : ℚ) else 1) →
      (dct_and_quantise_img id (fun _ _ => 1) (fun _ _ => 1) 1 1
          (fun _ => List.replicate 8 (List.replicate 8 (0 : ℚ))) 0).block 0 0
        = fun u v => ((ratTrunc
            ((id (fun a c => (view_as_blocks (crop8
                ((fun _ => List.replicate 8 (List.replicate 8 (0 : ℚ)))
                  (0 : Fin 3)))).block 0 0 a c - 128) : Block) u v
              / ((if (0 : Fin 3) = 0 then (fun _ _ => (1 : ℚ)) else fun _ _ => 1) u v
                  * (if (0 : Fin 3) = 0 then (1 : ℚ) else 1))) : ℤ) : ℚ))
    ∧ ((if (0 : Fin 3) = 0 then (1 : ℚ) else 1) = 0 →
      (dct_and_quantise_img id (fun _ _ => 1) (fun _ _ => 1) 1 1
          (fun _ => List.replicate 8 (List.replicate 8 (0 : ℚ))) 0).block 0 0
        = id (fun a c => (view_as_blocks (crop8
            ((fun _ => List.replicate 8 (List.replicate 8 (0 : ℚ)))
              (0 : Fin 3)))).block 0 0 a c - 128)) :=
  dct_quantise_C2 id (fun _ _ => 1) (fun _ _ => 1) 1 1
    (fun _ => List.replicate 8 (List.replicate 8 (0 : ℚ))) 0 0 0
    (by decide) (by decide)

theorem elt_replicate (a : ℚ) {n m r c : ℕ} (hr : r < n) (hc : c < m) :
    elt (List.replicate n (List.replicate m a)) r c = a := by
  unfold elt
  have h1 : (List.replicate n (List.replicate m a)).getD r [] = List.replicate m a := by
    rw [List.getD_eq_getElem _ _ (by simpa using hr)]
    exact List.getElem_replicate _ _
  rw [h1, List.getD_eq_getElem _ _ (by simpa using hc), List.getElem_replicate]

/-- Counterexample to C7: invalid parameters are silently accepted.  With
`sample_factor = 0` or `-2` the subsampler simply returns the planes
unchanged instead of raising an error, and a negative quantisation rate makes
`dct_and_quantise_img` silently skip quantisation: on a constant-130 plane
with the identity transform the (0,0) coefficient comes out as the raw shifted
value `130 - 128 = 2`, not an error and not a quantised value. -/
theorem validation_C7_counterexample :
    down_sample_cbcr id
        ⟨List.replicate 3 (List.replicate 3 (0 : ℚ)),
         List.replicate 3 (List.replicate 3 (0 : ℚ)),
         List.replicate 3 (List.replicate 3 (0 : ℚ))⟩ 0
      = ⟨List.replicate 3 (List.replicate 3 (0 : ℚ)),
         List.replicate 3 (List.replicate 3 (0 : ℚ)),
         List.replicate 3 (List.replicate 3 (0 : ℚ))⟩
    ∧ down_sample_cbcr id
        ⟨List.replicate 3 (List.replicate 3 (0 : ℚ)),
         List.replicate 3 (List.replicate 3 (0 : ℚ)),
         List.replicate 3 (List.replicate 3 (0 : ℚ))⟩ (-2)
      = ⟨List.replicate 3 (List.replicate 3 (0 : ℚ)),
         List.replicate 3 (List.replicate 3 (0 : ℚ)),
         List.replicate 3 (List.replicate 3 (0 : ℚ))⟩
    ∧ (dct_and_quantise_img id (fun _ _ => 1) (fun _ _ => 1) (-1) (-1)
        (fun _ => List.replicate 8 (List.replicate 8 (130 : ℚ))) 0).block 0 0 0 0 = 2 := by
  refine ⟨by decide, by decide, ?_⟩
  rw [dct_img_block id (fun _ _ => 1) (fun _ _ => 1) (-1) (-1)
      (fun _ => List.replicate 8 (List.replicate 8 (130 : ℚ))) 0
      (i := 0) (j := 0) (by decide) (by decide)]
  rw [processBlock_nonpos _ _ _ _ (by rw [if_pos rfl]; norm_num)]
  show (view_as_blocks (crop8 (List.replicate 8 (List.replicate 8 (130 : ℚ))))).block
      0 0 0 0 - 128 = 2
  have hv := view_crop_block (List.replicate 8 (List.replicate 8 (130 : ℚ)))
    (by unfold Rect; decide) (i := 0) (j := 0) (by decide) (by decide) 0 0
  rw [hv, elt_replicate 130 (by decide) (by decide)]
  norm_num

/-- C7 as amended: the pipeline performs no parameter validation.  Any
`sample_factor <= 1` — including 0 and negative values — silently takes the
no-subsampling branch and returns the planes unchanged, and a non-positive
rate (including negative ones) silently disables quantisation exactly like
rate 0; no invalid parameter is rejected before (or during) the
chroma-subsampling stage. -/
theorem no_validation_C7 (boxF : Plane → Plane) (img : Planes) (s : ℤ) (hs : s ≤ 1)
    (dct : Block → Block) (Qlum Qchrom : Block) (QL QC : ℚ)
    (img2 : Fin 3 → Plane) (ch : Fin 3) (i j : ℕ)
    (hi : i < (dct_and_quantise_img dct Qlum Qchrom QL QC img2 ch).bh)
    (hj : j < (dct_and_quantise_img dct Qlum Qchrom QL QC img2 ch).bw)
    (hQ : (if ch = 0 then QL else QC) ≤ 0) :
    down_sample_cbcr boxF img s = img
    ∧ (dct_and_quantise_img dct Qlum Qchrom QL QC img2 ch).block i j
        = dct (fun a c => (view_as_blocks (crop8 (img2 ch))).block i j a c - 128) := by
  constructor
  · unfold down_sample_cbcr
    rw [if_neg (by omega)]
  · rw [dct_img_block dct Qlum Qchrom QL QC img2 ch hi hj,
      processBlock_nonpos _ _ _ _ (not_lt.mpr hQ)]

/-- Witness for the amended C7 at `sample_factor = 0` and rate `-1`. -/
theorem no_validation_C7_witness :
    down_sample_cbcr id
        ⟨List.replicate 3 (List.replicate 3 (0 : ℚ)),
         List.replicate 3 (List.replicate 3 (0 : ℚ)),
         List.replicate 3 (List.replicate 3 (0 : ℚ))⟩ 0
      = ⟨List.replicate 3 (List.replicate 3 (0 : ℚ)),
         List.replicate 3 (List.replicate 3 (0 : ℚ)),
         List.replicate 3 (List.replicate 3 (0 : ℚ))⟩
    ∧ (dct_and_quantise_img id (fun _ _ => 1) (fun _ _ => 1) (-1) (-1)
        (fun _ => List.replicate 8 (List.replicate 8 (0 : ℚ))) 0).block 0 0
        = id (fun a c => (view_as_blocks (crop8
            ((fun _ => List.replicate 8 (List.replicate 8 (0 : ℚ)))
              (0 : Fin 3)))).block 0 0 a c - 128) :=
  no_validation_C7 id
    ⟨List.replicate 3 (List.replicate 3 (0 : ℚ)),
     List.replicate 3 (List.replicate 3 (0 : ℚ)),
     List.replicate 3 (List.replicate 3 (0 : ℚ))⟩ 0 (by decide)
    id (fun _ _ => 1) (fun _ _ => 1) (-1) (-1)
    (fun _ => List.replicate 8 (List.replicate 8 (0 : ℚ))) 0 0 0
    (by decide) (by decide) (by rw [if_pos rfl]; norm_num)

/-- Modelled from the spec: `JRpeg_util.zigzag_block` belongs to this
repository but is not under `src/`; the spec fixes it as the standard
JPEG-style diagonal zigzag scan of an 8x8 block, from the top-left DC corner
toward the bottom-right highest-frequency corner.  This is that traversal
order as (row, column) pairs. -/
def zigzagIdx : List (Fin 8 × Fin 8) :=
  [(0, 0), (0, 1), (1, 0), (2, 0), (1, 1), (0, 2), (0, 3), (1, 2), (2, 1),
   (3, 0), (4, 0), (3, 1), (2, 2), (1, 3), (0, 4), (0, 5), (1, 4), (2, 3),
   (3, 2), (4, 1), (5, 0), (6, 0), (5, 1), (4, 2), (3, 3), (2, 4), (1, 5),
   (0, 6), (0, 7), (1, 6), (2, 5), (3, 4), (4, 3), (5, 2), (6, 1), (7, 0),
   (7, 1), (6, 2), (5, 3), (4, 4), (3, 5), (2, 6), (1, 7), (2, 7), (3, 6),
   (4, 5), (5, 4), (6, 3), (7, 2), (7, 3), (6, 4), (5, 5), (4, 6), (3, 7),
   (4, 7), (5, 6), (6, 5), (7, 4), (7, 5), (6, 6), (5, 7), (6, 7), (7, 6),
   (7, 7)]

/-- Modelled from the spec: read the 64 coefficients of one block in zigzag
order into a flat list. -/
def zigzag_block (b : Block) : List ℚ :=
  zigzagIdx.map (fun q => b q.1 q.2)

/-- One element of an `EncodedChannel`: a bare scalar coefficient, a
`[run_length, value]` pair produced by the run-length grouping, or one of the
trailing numeric metadata entries (the rates may be non-integral floats). -/
inductive Entry where
  | int (v : ℤ)
  | pair (n : ℕ) (v : ℤ)
  | num (q : ℚ)
deriving DecidableEq

/-- The flat zigzag-ordered coefficient stream of one channel: every block in
row-major grid order, 64 zigzag values each. -/
def channelFlat (g : BlockGrid) : List ℚ :=
  (List.range g.bh).flatMap (fun i =>
    (List.range g.bw).flatMap (fun j => zigzag_block (g.block i j)))

/-- The coefficient stream coerced to integers (`list(map(int, ...))`). -/
def channelInts (g : BlockGrid) : List ℤ := (channelFlat g).map ratTrunc

/-- Merge one value into the run decomposition of the rest of the stream:
it extends the first run when the values agree and opens a new run of length
1 otherwise. -/
def rlePush (a : ℤ) : List (ℕ × ℤ) → List (ℕ × ℤ)
  | [] => [(1, a)]
  | (n, b) :: r => if a = b then (n + 1, b) :: r else (1, a) :: (n, b) :: r

/-- Grouping in the style of `itertools.groupby`: maximal runs of equal
consecutive values are collapsed into `(run_length, value)` pairs. -/
def rleGroup : List ℤ → List (ℕ × ℤ)
  | [] => []
  | a :: t => rlePush a (rleGroup t)

/-- The run-length entries of a channel: a run of length 1 is stored as the
bare value, a longer run as a `[run_length, value]` pair. -/
def rleEntries (l : List ℤ) : List Entry :=
  (rleGroup l).map (fun q => if q.1 = 1 then Entry.int q.2 else Entry.pair q.1 q.2)

/-- The pre-metadata portion of one encoded channel. -/
def encodeChannel (g : BlockGrid) : List Entry := rleEntries (channelInts g)

/-- How many trailing metadata entries a channel carries: the luma channel
has `[block_height, block_width, QL_rate, QC_rate]`, the chroma channels have
`[block_height, block_width]`. -/
def metaLen (ch : Fin 3) : ℕ := if ch = 0 then 4 else 2

/-- Embedding of `encode_and_save_quantised_dct_img` (the persisted structure): per
channel, the run-length entries followed by the block-grid height and width;
after the loop the luma channel additionally receives `QL_rate` and
`QC_rate`. -/
def encode_and_save_quantised_dct_img (img : Fin 3 → BlockGrid) (QL QC : ℚ) :
    Fin 3 → List Entry :=
  fun ch =>
    encodeChannel (img ch)
      ++ [Entry.int (img ch).bh, Entry.int (img ch).bw]
      ++ (if ch = 0 then [Entry.num QL, Entry.num QC] else [])

/-- Decoder-side expansion of one entry: a bare scalar stands for itself, a
pair for `run_length` copies of its value. -/
def expandEntry : Entry → List ℤ
  | Entry.int v => [v]
  | Entry.pair n v => List.replicate n v
  | Entry.num _ => []

/-- Decoder-side expansion of an entry sequence. -/
def expandEntries (l : List Entry) : List ℤ := l.flatMap expandEntry

/-- The coefficient value an entry encodes (metadata entries excluded). -/
def entryVal : Entry → ℤ
  | Entry.int v => v
  | Entry.pair _ v => v
  | Entry.num _ => 0

/-- Check that every pair entry has run length at least 2. -/
def pairsAtLeastTwo (l : List Entry) : Bool :=
  l.all (fun e => match e with
    | Entry.pair n _ => decide (2 ≤ n)
    | _ => true)

/-- Check that no two consecutive entries encode the same value. -/
def adjDistinct : List Entry → Bool
  | [] => true
  | [_] => true
  | a :: b :: t => if entryVal a = entryVal b then false else adjDistinct (b :: t)

/-- Check that an entry is a bare scalar. -/
def isScalar : Entry → Bool
  | Entry.int _ => true
  | _ => false

/-- Expansion of run groups back into the value stream. -/
def runsExpand (gl : List (ℕ × ℤ)) : List ℤ :=
  gl.flatMap (fun q => List.replicate q.1 q.2)

theorem rleGroup_cons_ne_nil (a : ℤ) (t : List ℤ) : rleGroup (a :: t) ≠ [] := by
  simp only [rleGroup]
  cases h : rleGroup t with
  | nil => simp [rlePush]
  | cons q r =>
      obtain ⟨n, b⟩ := q
      simp only [rlePush]
      by_cases hab : a = b
      · rw [if_pos hab]; simp
      · rw [if_neg hab]; simp

theorem rleGroup_eq_nil {l : List ℤ} (h : rleGroup l = []) : l = [] := by
  cases l with
  | nil => rfl
  | cons a t => exact absurd h (rleGroup_cons_ne_nil a t)

theorem expandEntries_rleEntries (l : List ℤ) :
    expandEntries (rleEntries l) = runsExpand (rleGroup l) := by
  unfold expandEntries rleEntries runsExpand
  induction rleGroup l with
  | nil => rfl
  | cons q gl ih =>
      simp only [List.map_cons, List.flatMap_cons, ih]
      congr 1
      by_cases h1 : q.1 = 1
      · simp [h1, expandEntry]
      · simp [h1, expandEntry]

theorem runsExpand_rleGroup (l : List ℤ) : runsExpand (rleGroup l) = l := by
  induction l with
  | nil => rfl
  | cons a t ih =>
      simp only [rleGroup]
      cases h : rleGroup t with
      | nil =>
          have ht : t = [] := rleGroup_eq_nil h
          subst ht
          rfl
      | cons q r =>
          obtain ⟨n, b⟩ := q
          rw [h] at ih
          simp only [rlePush]
          by_cases hab : a = b
          · rw [if_pos hab]
            unfold runsExpand at ih ⊢
            simp only [List.flatMap_cons] at ih ⊢
            rw [List.replicate_succ, List.cons_append, ih, hab]
          · rw [if_neg hab]
            unfold runsExpand at ih ⊢
            simp only [List.flatMap_cons] at ih ⊢
            rw [ih]
            rfl

/-- Round trip: expanding the run-length entries of any integer stream gives
back exactly that stream. -/
theorem expand_rleEntries (l : List ℤ) : expandEntries (rleEntries l) = l := by
  rw [expandEntries_rleEntries, runsExpand_rleGroup]

theorem rleGroup_pos : ∀ (l : List ℤ) (q : ℕ × ℤ), q ∈ rleGroup l → 1 ≤ q.1 := by
  intro l
  induction l with
  | nil => intro q h; exact absurd h (List.not_mem_nil q)
  | cons a t ih =>
      intro q hq
      simp only [rleGroup] at hq
      cases h : rleGroup t with
      | nil =>
          rw [h] at hq
          simp only [rlePush] at hq
          rcases List.mem_cons.mp hq with h1 | h1
          · rw [h1]
          · exact absurd h1 (List.not_mem_nil q)
      | cons p r =>
          obtain ⟨n, b⟩ := p
          rw [h] at hq
          simp only [rlePush] at hq
          by_cases hab : a = b
          · rw [if_pos hab] at hq
            rcases List.mem_cons.mp hq with h1 | h1
            · rw [h1]; omega
            · exact ih q (h ▸ List.mem_cons_of_mem _ h1)
          · rw [if_neg hab] at hq
            rcases List.mem_cons.mp hq with h1 | h1
            · rw [h1]
            · exact ih q (h ▸ h1)

theorem rleGroup_chain (l : List ℤ) :
    (rleGroup l).Chain' (fun p q => p.2 ≠ q.2) := by
  induction l with
  | nil => exact List.chain'_nil
  | cons a t ih =>
      simp only [rleGroup]
      cases h : rleGroup t with
      | nil => simp [rlePush]
      | cons p r =>
          obtain ⟨n, b⟩ := p
          rw [h] at ih
          simp only [rlePush]
          by_cases hab : a = b
          · rw [if_pos hab]
            cases r with
            | nil => simp
            | cons c r2 =>
                rw [List.chain'_cons] at ih ⊢
                exact ih
          · rw [if_neg hab]
            rw [List.chain'_cons]
            exact ⟨hab, ih⟩

theorem entryVal_rle (q : ℕ × ℤ) :
    entryVal (if q.1 = 1 then Entry.int q.2 else Entry.pair q.1 q.2) = q.2 := by
  by_cases h : q.1 = 1
  · rw [if_pos h]; rfl
  · rw [if_neg h]; rfl

theorem pairsAtLeastTwo_rleEntries (l : List ℤ) : pairsAtLeastTwo (rleEntries l) = true := by
  unfold pairsAtLeastTwo rleEntries
  rw [List.all_eq_true]
  intro e he
  rcases List.mem_map.mp he with ⟨q, hq, hEq⟩
  have h1 := rleGroup_pos l q hq
  by_cases hone : q.1 = 1
  · rw [← hEq, if_pos hone]
  · rw [← hEq, if_neg hone]
    simp only
    exact decide_eq_true (by omega)

theorem adjDistinct_map_rle (gl : List (ℕ × ℤ))
    (hc : gl.Chain' (fun p q => p.2 ≠ q.2)) :
    adjDistinct (gl.map (fun q => if q.1 = 1 then Entry.int q.2 else Entry.pair q.1 q.2))
      = true := by
  induction gl with
  | nil => rfl
  | cons p gl2 ih =>
      cases gl2 with
      | nil => rfl
      | cons p2 gl3 =>
          rw [List.chain'_cons] at hc
          simp only [List.map_cons]
          unfold adjDistinct
          rw [entryVal_rle, entryVal_rle, if_neg hc.1]
          exact ih hc.2

theorem adjDistinct_rleEntries (l : List ℤ) : adjDistinct (rleEntries l) = true :=
  adjDistinct_map_rle (rleGroup l) (rleGroup_chain l)

theorem ratTrunc_zero : ratTrunc 0 = 0 := by
  have h := ratTrunc_natCast 0
  simpa using h

theorem zigzag_block_length (b : Block) : (zigzag_block b).length = 64 := by
  unfold zigzag_block
  rw [List.length_map]
  rfl

theorem channelFlat_length (g : BlockGrid) :
    (channelFlat g).length = g.bh * g.bw * 64 := by
  unfold channelFlat
  rw [List.length_flatMap]
  have hin : (List.map (List.length ∘ fun i => (List.range g.bw).flatMap
      (fun j => zigzag_block (g.block i j))) (List.range g.bh))
      = List.replicate g.bh (g.bw * 64) := by
    rw [List.eq_replicate_iff]
    constructor
    · rw [List.length_map, List.length_range]
    · intro c hc
      rcases List.mem_map.mp hc with ⟨i, _, hEq⟩
      rw [← hEq]
      show ((List.range g.bw).flatMap (fun j => zigzag_block (g.block i j))).length = _
      rw [List.length_flatMap]
      have h2 : List.map (List.length ∘ fun j => zigzag_block (g.block i j)) (List.range g.bw)
          = List.replicate g.bw 64 := by
        rw [List.eq_replicate_iff]
        constructor
        · rw [List.length_map, List.length_range]
        · intro d hd
          rcases List.mem_map.mp hd with ⟨j, _, hEq2⟩
          rw [← hEq2]
          exact zigzag_block_length _
      rw [h2, List.sum_replicate, smul_eq_mul]
  rw [hin, List.sum_replicate, smul_eq_mul, ← mul_assoc]

theorem channelInts_length (g : BlockGrid) :
    (channelInts g).length = g.bh * g.bw * 64 := by
  unfold channelInts
  rw [List.length_map, channelFlat_length]

theorem rleGroup_replicate (n : ℕ) (a : ℤ) :
    rleGroup (List.replicate (n + 1) a) = [(n + 1, a)] := by
  induction n with
  | zero => rfl
  | succ m ih =>
      show rlePush a (rleGroup (List.replicate (m + 1) a)) = [(m + 1 + 1, a)]
      rw [ih]
      simp [rlePush]

theorem channelFlat_one (f : ℕ → ℕ → Block) :
    channelFlat (BlockGrid.mk 1 1 f) = zigzag_block (f 0 0) := by
  unfold channelFlat
  rw [show List.range 1 = [0] from rfl]
  simp

theorem channelInts_zero_block :
    channelInts (BlockGrid.mk 1 1 (fun _ _ _ _ => 0)) = List.replicate 64 0 := by
  unfold channelInts
  rw [channelFlat_one]
  unfold zigzag_block
  rw [List.map_map]
  have h : (ratTrunc ∘ fun _ : Fin 8 × Fin 8 => (0 : ℚ)) = Function.const _ (0 : ℤ) := by
    funext q
    simp [Function.comp, ratTrunc_zero, Function.const]
  rw [h, List.map_const]
  rfl

theorem encodeChannel_zero_block :
    encodeChannel (BlockGrid.mk 1 1 (fun _ _ _ _ => 0)) = [Entry.pair 64 0] := by
  unfold encodeChannel rleEntries
  rw [channelInts_zero_block, show (64 : ℕ) = 63 + 1 from rfl, rleGroup_replicate]
  simp

theorem channelInts_distinct_block :
    channelInts (BlockGrid.mk 1 1 (fun _ _ u v => ((8 * (u : ℕ) + (v : ℕ) : ℕ) : ℚ)))
      = zigzagIdx.map (fun q => ((8 * (q.1 : ℕ) + (q.2 : ℕ) : ℕ) : ℤ)) := by
  unfold channelInts
  rw [channelFlat_one]
  unfold zigzag_block
  rw [List.map_map]
  apply List.map_congr_left
  intro q _
  show ratTrunc (((8 * (q.1 : ℕ) + (q.2 : ℕ) : ℕ) : ℚ)) = _
  rw [ratTrunc_natCast]

theorem encode_take (img : Fin 3 → BlockGrid) (QL QC : ℚ) (ch : Fin 3) :
    (encode_and_save_quantised_dct_img img QL QC ch).take
        ((encode_and_save_quantised_dct_img img QL QC ch).length - metaLen ch)
      = encodeChannel (img ch) := by
  unfold encode_and_save_quantised_dct_img metaLen
  by_cases hch : ch = 0
  · rw [if_pos hch, if_pos hch, List.append_assoc]
    have h2 : (encodeChannel (img ch) ++ ([Entry.int (img ch).bh, Entry.int (img ch).bw]
        ++ [Entry.num QL, Entry.num QC])).length - 4 = (encodeChannel (img ch)).length := by
      simp only [List.length_append, List.length_cons, List.length_nil]
      omega
    rw [h2, List.take_left]
  · rw [if_neg hch, if_neg hch, List.append_assoc]
    have h2 : (encodeChannel (img ch) ++ ([Entry.int (img ch).bh, Entry.int (img ch).bw]
        ++ [])).length - 2 = (encodeChannel (img ch)).length := by
      simp only [List.length_append, List.length_cons, List.length_nil]
      omega
    rw [h2, List.take_left]

theorem encode_drop (img : Fin 3 → BlockGrid) (QL QC : ℚ) (ch : Fin 3) :
    (encode_and_save_quantised_dct_img img QL QC ch).drop
        ((encode_and_save_quantised_dct_img img QL QC ch).length - metaLen ch)
      = [Entry.int (img ch).bh, Entry.int (img ch).bw]
        ++ (if ch = 0 then [Entry.num QL, Entry.num QC] else []) := by
  unfold encode_and_save_quantised_dct_img metaLen
  by_cases hch : ch = 0
  · simp only [if_pos hch]
    rw [List.append_assoc]
    have h2 : (encodeChannel (img ch) ++ ([Entry.int (img ch).bh, Entry.int (img ch).bw]
        ++ [Entry.num QL, Entry.num QC])).length - 4 = (encodeChannel (img ch)).length := by
      simp only [List.length_append, List.length_cons, List.length_nil]
      omega
    rw [h2, List.drop_left]
  · simp only [if_neg hch]
    rw [List.append_assoc]
    have h2 : (encodeChannel (img ch) ++ ([Entry.int (img ch).bh, Entry.int (img ch).bw]
        ++ [])).length - 2 = (encodeChannel (img ch)).length := by
      simp only [List.length_append, List.length_cons, List.length_nil]
      omega
    rw [h2, List.drop_left]

/-- C1: expanding the run-length entries of any encoded channel (the entries
before the trailing metadata) reproduces exactly the flat zigzag-ordered
integer coefficient stream, whose total length is
`block_height * block_width * 64`; a channel of one all-zero 8x8 block
encodes to the single pair `(64, 0)`, and a single block with 64 pairwise
distinct zigzag values encodes to 64 bare scalars. -/
theorem rle_roundtrip_C1 :
    (∀ g : BlockGrid,
        expandEntries (encodeChannel g) = channelInts g
        ∧ (channelInts g).length = g.bh * g.bw * 64)
    ∧ (∀ (img : Fin 3 → BlockGrid) (QL QC : ℚ) (ch : Fin 3),
        expandEntries ((encode_and_save_quantised_dct_img img QL QC ch).take
            ((encode_and_save_quantised_dct_img img QL QC ch).length - metaLen ch))
          = channelInts (img ch))
    ∧ encodeChannel (BlockGrid.mk 1 1 (fun _ _ _ _ => 0)) = [Entry.pair 64 0]
    ∧ ((encodeChannel (BlockGrid.mk 1 1
          (fun _ _ u v => ((8 * (u : ℕ) + (v : ℕ) : ℕ) : ℚ)))).length = 64
        ∧ (encodeChannel (BlockGrid.mk 1 1
            (fun _ _ u v => ((8 * (u : ℕ) + (v : ℕ) : ℕ) : ℚ)))).all isScalar = true) := by
  refine ⟨?_, ?_, encodeChannel_zero_block, ?_⟩
  · intro g
    exact ⟨expand_rleEntries (channelInts g), channelInts_length g⟩
  · intro img QL QC ch
    rw [encode_take]
    exact expand_rleEntries (channelInts (img ch))
  · have he : encodeChannel (BlockGrid.mk 1 1
        (fun _ _ u v => ((8 * (u : ℕ) + (v : ℕ) : ℕ) : ℚ)))
        = rleEntries (zigzagIdx.map (fun q => ((8 * (q.1 : ℕ) + (q.2 : ℕ) : ℕ) : ℤ))) := by
      unfold encodeChannel
      rw [channelInts_distinct_block]
    rw [he]
    exact ⟨by decide, by decide⟩

/-- C9: every channel carries its run-length entries first; the last
`metaLen` entries are the block-grid height then width, and on the luma
channel the final four entries are `block_height, block_width, QL_rate,
QC_rate` in that order (channels 1 and 2 end with just height and width). -/
theorem metadata_layout_C9 (img : Fin 3 → BlockGrid) (QL QC : ℚ) :
    (∀ ch : Fin 3,
      (encode_and_save_quantised_dct_img img QL QC ch).take
          ((encode_and_save_quantised_dct_img img QL QC ch).length - metaLen ch)
        = encodeChannel (img ch))
    ∧ (encode_and_save_quantised_dct_img img QL QC 0).drop
          ((encode_and_save_quantised_dct_img img QL QC 0).length - 4)
        = [Entry.int (img 0).bh, Entry.int (img 0).bw, Entry.num QL, Entry.num QC]
    ∧ (encode_and_save_quantised_dct_img img QL QC 1).drop
          ((encode_and_save_quantised_dct_img img QL QC 1).length - 2)
        = [Entry.int (img 1).bh, Entry.int (img 1).bw]
    ∧ (encode_and_save_quantised_dct_img img QL QC 2).drop
          ((encode_and_save_quantised_dct_img img QL QC 2).length - 2)
        = [Entry.int (img 2).bh, Entry.int (img 2).bw] := by
  refine ⟨encode_take img QL QC, ?_, ?_, ?_⟩
  · have h := encode_drop img QL QC 0
    simp only [metaLen, if_pos rfl] at h
    simpa using h
  · have h := encode_drop img QL QC 1
    have h10 : ¬ ((1 : Fin 3) = 0) := by decide
    simp only [metaLen, if_neg h10] at h
    simpa using h
  · have h := encode_drop img QL QC 2
    have h20 : ¬ ((2 : Fin 3) = 0) := by decide
    simp only [metaLen, if_neg h20] at h
    simpa using h

/-- C10: in the pre-metadata portion of every encoded channel, every
`[run_length, value]` pair has `run_length >= 2` (runs of length 1 are
stored as bare scalars) and no two consecutive entries encode the same
value (runs are maximal), which keeps arity-based decoding unambiguous. -/
theorem rle_entry_invariants_C10 :
    ∀ (img : Fin 3 → BlockGrid) (QL QC : ℚ) (ch : Fin 3),
      pairsAtLeastTwo ((encode_and_save_quantised_dct_img img QL QC ch).take
          ((encode_and_save_quantised_dct_img img QL QC ch).length - metaLen ch)) = true
      ∧ adjDistinct ((encode_and_save_quantised_dct_img img QL QC ch).take
          ((encode_and_save_quantised_dct_img img QL QC ch).length - metaLen ch)) = true := by
  intro img QL QC ch
  rw [encode_take]
  exact ⟨pairsAtLeastTwo_rleEntries (channelInts (img ch)),
    adjDistinct_rleEntries (channelInts (img ch))⟩

end JRpeg
